import Mathlib

/-!
Shallow embedding of the MarketKing trading-strategy pipeline
(src/methods.py): moving averages, crossover signals, and the
all-in/all-out strategy simulator, with theorems checking the
specification's claims against the code.

Modelling conventions:
* prices and money are rationals (ℚ) standing for Python floats;
* a pandas value that may be NaN is an `Option ℚ` (`none` = NaN);
* a pandas Series is a `List` aligned to the integer index;
* a DataFrame is a list of named columns, in column order.
-/

namespace MarketKing

/-- One row of the decision series fed to `validate`: a price plus the
`buy_signal` / `sell_signal` columns, where `none` models NaN (no signal)
and `some p` models a present numeric signal value. -/
structure Row where
  price : ℚ
  buy_signal : Option ℚ
  sell_signal : Option ℚ
  deriving Repr, DecidableEq

/-- Guard of the buy block in `validate`:
`if ~np.isnan(r["buy_signal"]): if money > 0:`. -/
def buyFires (money : ℚ) (r : Row) : Bool :=
  r.buy_signal.isSome && decide (0 < money)

/-- Guard of the sell block in `validate`:
`if ~np.isnan(r["sell_signal"]): if eq > 0:`. -/
def sellFires (position : ℚ) (r : Row) : Bool :=
  r.sell_signal.isSome && decide (0 < position)

/-- The buy block of `validate` on state `(money, eq)`:
`available_eq = floor(money / price); eq += available_eq;
money -= available_eq * price`. -/
def buyStep (s : ℚ × ℚ) (r : Row) : ℚ × ℚ :=
  if buyFires s.1 r then
    (s.1 - ((⌊s.1 / r.price⌋ : ℤ) : ℚ) * r.price,
      s.2 + ((⌊s.1 / r.price⌋ : ℤ) : ℚ))
  else s

/-- The sell block of `validate` on state `(money, eq)`:
`sell_eq = eq; eq = 0; money += sell_eq * price`. -/
def sellStep (s : ℚ × ℚ) (r : Row) : ℚ × ℚ :=
  if sellFires s.2 r then (s.1 + s.2 * r.price, 0) else s

/-- One loop iteration of `validate`: the buy block runs first, then the
sell block runs on the state the buy block left behind. -/
def valStep (s : ℚ × ℚ) (r : Row) : ℚ × ℚ :=
  sellStep (buyStep s r) r

/-- The loop of `validate`: processes the rows in order, appending the
cash balance to `money_hist` after each row; returns the history and the
final `(money, eq)` state. -/
def runHist : List Row → ℚ × ℚ → List ℚ × (ℚ × ℚ)
  | [], s => ([], s)
  | r :: rs, s =>
    let s1 := valStep s r
    let rest := runHist rs s1
    (s1.1 :: rest.1, rest.2)

/-- `validate(stocks, start_money, start_eq)`.  After the loop the code
reads `last_price` (bound only inside the loop body), so on an empty
series the function dies with an unbound-variable error before returning
anything: modelled as `none`.  Otherwise it force-liquidates
(`money += last_price * eq; eq = 0`) and returns
`(money_hist, money, eq)`. -/
def validate (stocks : List Row) (start_money : ℚ) (start_eq : ℚ) :
    Option (List ℚ × ℚ × ℚ) :=
  match stocks.getLast? with
  | none => none
  | some lastRow =>
    let res := runHist stocks (start_money, start_eq)
    some (res.1, res.2.1 + lastRow.price * res.2.2, 0)

/-- `prices.rolling(w).mean()`: at index `i` the arithmetic mean of the
window of `w` prices ending at `i`, NaN (`none`) while fewer than `w`
prices have accumulated. -/
def rollingMean (w : ℕ) (prices : List ℚ) : List (Option ℚ) :=
  (List.range prices.length).map fun i =>
    if w ≤ i + 1 ∧ 0 < w then
      some (((prices.take (i + 1)).drop (i + 1 - w)).sum / (w : ℚ))
    else none

/-- `create_ma(prices, ma_steps)`: a table whose first column is the
price series and which gains one column `ma_w` per requested window
`w`, in the order the windows are supplied (no validation of that
order is performed). -/
def create_ma (prices : List ℚ) (ma_steps : List ℕ) :
    List (String × List (Option ℚ)) :=
  ("price", prices.map some) ::
    ma_steps.map fun w => ("ma_" ++ toString w, rollingMean w prices)

/-- Entry of a NaN-able series at integer index `t` (`none` when out of
range or NaN). -/
def entry (s : List (Option ℚ)) (t : ℕ) : Option ℚ :=
  (s.get? t).join

/-- `s.shift(-1)` read at index `t`: the entry one step in the future. -/
def nextEntry (s : List (Option ℚ)) (t : ℕ) : Option ℚ :=
  entry s (t + 1)

/-- `s.shift(1)` read at index `t`: the entry one step in the past, NaN
at the start of the series. -/
def prevEntry (s : List (Option ℚ)) (t : ℕ) : Option ℚ :=
  if t = 0 then none else entry s (t - 1)

/-- Pandas comparison `a < b` on possibly-NaN values: any comparison
with NaN is false. -/
def optLT : Option ℚ → Option ℚ → Bool
  | some a, some b => decide (a < b)
  | _, _ => false

/-- `find_sell_signals` at one index:
`short.shift(-1) > long.shift(-1) & short.shift(1) < long.shift(1)`. -/
def sellSignalAt (short_ma long_ma : List (Option ℚ)) (t : ℕ) : Bool :=
  optLT (nextEntry long_ma t) (nextEntry short_ma t) &&
    optLT (prevEntry short_ma t) (prevEntry long_ma t)

/-- `find_buy_signals` at one index:
`short.shift(1) > long.shift(1) & short.shift(-1) < long.shift(-1)`. -/
def buySignalAt (short_ma long_ma : List (Option ℚ)) (t : ℕ) : Bool :=
  optLT (nextEntry short_ma t) (nextEntry long_ma t) &&
    optLT (prevEntry long_ma t) (prevEntry short_ma t)

/-- `find_sell_signals(short_ma, long_ma)` as a whole series. -/
def find_sell_signals (short_ma long_ma : List (Option ℚ)) : List Bool :=
  (List.range short_ma.length).map (sellSignalAt short_ma long_ma)

/-- `find_buy_signals(short_ma, long_ma)` as a whole series. -/
def find_buy_signals (short_ma long_ma : List (Option ℚ)) : List Bool :=
  (List.range short_ma.length).map (buySignalAt short_ma long_ma)

/-- The index pairs enumerated by the two nested loops of
`form_signals`: `for i in range(1, n): for j in range(i, n)` — note the
inner loop starts at `i`, not `i + 1`. -/
def signalPairs (n : ℕ) : List (ℕ × ℕ) :=
  ((List.range n).drop 1).flatMap fun i =>
    ((List.range n).drop i).map fun j => (i, j)

/-- `form_signals(data_ma)`: for every loop pair `(i, j)` build the
named sell and buy signal series from columns `i` (short) and `j`
(long), then `.astype(int)` turns booleans into 0/1. -/
def form_signals (data_ma : List (String × List (Option ℚ))) :
    List (String × List ℕ) × List (String × List ℕ) :=
  let pairs := signalPairs data_ma.length
  let sell := pairs.map fun p =>
    let sc := data_ma.getD p.1 ("", [])
    let lc := data_ma.getD p.2 ("", [])
    (sc.1 ++ "_" ++ lc.1 ++ "_sell_signal",
      (find_sell_signals sc.2 lc.2).map fun b => if b then 1 else 0)
  let buy := pairs.map fun p =>
    let sc := data_ma.getD p.1 ("", [])
    let lc := data_ma.getD p.2 ("", [])
    (sc.1 ++ "_" ++ lc.1 ++ "_buy_signal",
      (find_buy_signals sc.2 lc.2).map fun b => if b then 1 else 0)
  (sell, buy)

/-! ### Helper lemmas -/

/-- Membership in a suffix of `List.range`. -/
lemma mem_drop_range {n k i : ℕ} : i ∈ (List.range n).drop k ↔ k ≤ i ∧ i < n := by
  rw [List.mem_iff_getElem?]
  constructor
  · rintro ⟨j, hj⟩
    rw [List.getElem?_drop, List.getElem?_eq_some_iff] at hj
    obtain ⟨h1, h2⟩ := hj
    rw [List.getElem_range] at h2
    simp only [List.length_range] at h1
    omega
  · rintro ⟨h1, h2⟩
    refine ⟨i - k, ?_⟩
    rw [List.getElem?_drop, List.getElem?_range (by omega)]
    congr 1
    omega

/-- `optLT` is `true` exactly on two present values that strictly compare. -/
lemma optLT_eq_true {a b : Option ℚ} :
    optLT a b = true ↔ ∃ x y, a = some x ∧ b = some y ∧ x < y := by
  cases a with
  | none => simp [optLT]
  | some x =>
    cases b with
    | none => simp [optLT]
    | some y => simp [optLT]

/-! ### C7: empty decision series -/

/-- C7: on the empty decision series `validate` fails (the unbound
`last_price` read aborts it) and returns no wealth history at all. -/
theorem C7_empty_fails (start_money start_eq : ℚ) :
    validate [] start_money start_eq = none := rfl

/-! ### C4: concrete scenario -/

/-- C4: on prices `[10, 20, 30]` with a buy signal only at index 0, a
sell signal only at index 2, `start_money = 100` and `start_eq = 0`, the
simulator buys `⌊100/10⌋ = 10` units at step 0 leaving cash 0, does
nothing at step 1, sells the 10 units at price 30 at step 2, and returns
wealth history `[0, 0, 300]`, final cash 300 and final position 0. -/
theorem C4_scenario :
    valStep (100, 0) (Row.mk 10 (some 10) none) = (0, 10) ∧
    valStep (0, 10) (Row.mk 20 none none) = (0, 10) ∧
    valStep (0, 10) (Row.mk 30 none (some 30)) = (300, 0) ∧
    validate [Row.mk 10 (some 10) none, Row.mk 20 none none,
        Row.mk 30 none (some 30)] 100 0 = some ([0, 0, 300], 300, 0) := by
  refine ⟨?_, ?_, ?_, ?_⟩ <;>
    norm_num [validate, runHist, valStep, buyStep, sellStep, buyFires,
      sellFires, List.getLast?]

/-! ### C1: at most one trade per step -/

/-- C1 counterexample: on a row carrying both a buy and a sell signal,
with cash 100, position 0 and price 10, the buy block fires AND the sell
block fires on the very same row (the code's two `if`s are independent):
10 units are bought for the whole 100 and immediately liquidated. -/
theorem C1_counterexample :
    buyFires 100 (Row.mk 10 (some 10) (some 10)) = true ∧
    sellFires (buyStep (100, 0) (Row.mk 10 (some 10) (some 10))).2
      (Row.mk 10 (some 10) (some 10)) = true ∧
    valStep (100, 0) (Row.mk 10 (some 10) (some 10)) = (100, 0) := by
  refine ⟨?_, ?_, ?_⟩ <;>
    norm_num [valStep, buyStep, sellStep, buyFires, sellFires]

/-- C1 (amended): provided no row of the decision series carries both a
buy and a sell signal, at most one trade action executes per step — the
buy block and the sell block never both fire on the same row, whatever
state has been reached. -/
theorem C1_at_most_one_trade (stocks : List Row)
    (hx : ∀ r ∈ stocks, r.buy_signal = none ∨ r.sell_signal = none)
    (s : ℚ × ℚ) (r : Row) (hr : r ∈ stocks) :
    ¬(buyFires s.1 r = true ∧ sellFires (buyStep s r).2 r = true) := by
  rintro ⟨hb, hs⟩
  rw [buyFires, Bool.and_eq_true] at hb
  rw [sellFires, Bool.and_eq_true] at hs
  rcases hx r hr with h | h
  · rw [h] at hb
    exact Bool.noConfusion hb.1
  · rw [h] at hs
    exact Bool.noConfusion hs.1

/-- Concrete instantiation of `C1_at_most_one_trade`. -/
theorem C1_witness :
    ¬(buyFires 100 (Row.mk 10 (some 10) none) = true ∧
      sellFires (buyStep (100, 0) (Row.mk 10 (some 10) none)).2
        (Row.mk 10 (some 10) none) = true) :=
  C1_at_most_one_trade [Row.mk 10 (some 10) none]
    (by intro r hr
        rw [List.mem_singleton] at hr
        subst hr
        exact Or.inr rfl)
    (100, 0) (Row.mk 10 (some 10) none) (List.mem_singleton.mpr rfl)

/-! ### C9: buy and sell signals are mutually exclusive -/

/-- C9: for every pair of moving-average series and every index, the
sell signal from `find_sell_signals` and the buy signal from
`find_buy_signals` are never both set (the strict inequalities on the
shifted-forward values exclude each other). -/
theorem C9_mutual_exclusivity (short_ma long_ma : List (Option ℚ)) (t : ℕ) :
    ¬((find_sell_signals short_ma long_ma)[t]? = some true ∧
      (find_buy_signals short_ma long_ma)[t]? = some true) := by
  rintro ⟨hs, hb⟩
  rw [find_sell_signals, List.getElem?_map, Option.map_eq_some'] at hs
  rw [find_buy_signals, List.getElem?_map, Option.map_eq_some'] at hb
  obtain ⟨i, hi, hsig⟩ := hs
  obtain ⟨i', hi', hsig'⟩ := hb
  rw [sellSignalAt, Bool.and_eq_true, optLT_eq_true, optLT_eq_true] at hsig
  rw [buySignalAt, Bool.and_eq_true, optLT_eq_true, optLT_eq_true] at hsig'
  obtain ⟨⟨x, y, hx, hy, hxy⟩, -⟩ := hsig
  obtain ⟨⟨x', y', hx', hy', hxy'⟩, -⟩ := hsig'
  have hii : i = i' := by
    have h1 := List.getElem?_eq_some_iff.mp hi
    have h2 := List.getElem?_eq_some_iff.mp hi'
    obtain ⟨_, e1⟩ := h1
    obtain ⟨_, e2⟩ := h2
    rw [List.getElem_range] at e1 e2
    omega
  subst hii
  rw [hx'] at hy
  rw [hy'] at hx
  cases hy
  cases hx
  exact absurd hxy' (not_lt.mpr hxy.le)

/-! ### C5: the sell-signal definition -/

/-- C5: the sell signal of `find_sell_signals` is set at index `t`
exactly when `t` is inside the series, both compared series are defined
one step in the future with `short > long` there, and both are defined
one step in the past with `short < long` there; whenever any of the four
values is missing (NaN or series boundary, including `t = 0` where no
past step exists) the signal is 0. -/
theorem C5_sell_signal (short_ma long_ma : List (Option ℚ)) (t : ℕ) :
    (find_sell_signals short_ma long_ma)[t]? = some true ↔
      t < short_ma.length ∧ 1 ≤ t ∧
      (∃ a b, entry short_ma (t + 1) = some a ∧
        entry long_ma (t + 1) = some b ∧ b < a) ∧
      (∃ c d, entry short_ma (t - 1) = some c ∧
        entry long_ma (t - 1) = some d ∧ c < d) := by
  rw [find_sell_signals, List.getElem?_map, Option.map_eq_some']
  constructor
  · rintro ⟨i, hi, hsig⟩
    obtain ⟨hlen, hval⟩ := List.getElem?_eq_some_iff.mp hi
    rw [List.getElem_range] at hval
    rw [List.length_range] at hlen
    subst hval
    rw [sellSignalAt, Bool.and_eq_true, optLT_eq_true, optLT_eq_true] at hsig
    obtain ⟨⟨x, y, hx, hy, hxy⟩, ⟨c, d, hc, hd, hcd⟩⟩ := hsig
    rw [nextEntry] at hx hy
    by_cases ht0 : t = 0
    · rw [prevEntry, if_pos ht0] at hc
      exact Option.noConfusion hc
    · rw [prevEntry, if_neg ht0] at hc hd
      exact ⟨hlen, by omega, ⟨y, x, hy, hx, hxy⟩, ⟨c, d, hc, hd, hcd⟩⟩
  · rintro ⟨hlen, ht1, ⟨a, b, ha, hb, hab⟩, ⟨c, d, hc, hd, hcd⟩⟩
    refine ⟨t, List.getElem?_range hlen, ?_⟩
    rw [sellSignalAt, Bool.and_eq_true, optLT_eq_true, optLT_eq_true]
    refine ⟨⟨b, a, ?_, ?_, hab⟩, ⟨c, d, ?_, ?_, hcd⟩⟩
    · rw [nextEntry]; exact hb
    · rw [nextEntry]; exact ha
    · rw [prevEntry, if_neg (by omega)]; exact hc
    · rw [prevEntry, if_neg (by omega)]; exact hd

/-! ### C2: which column pairs generate signals -/

/-- C2 counterexample: the inner loop of `form_signals` starts at `i`,
not `i + 1`, so the self-pair `(1, 1)` is generated: on a three-column
MA table the very first sell-signal series compares column `ma_5` with
itself. -/
theorem C2_counterexample :
    (1, 1) ∈ signalPairs 3 ∧
    "ma_5_ma_5_sell_signal" ∈
      (form_signals (create_ma [1, 2, 3] [5, 10])).1.map Prod.fst := by
  constructor
  · decide
  · decide

/-- C2 (amended): `form_signals` produces one sell and one buy series
per ordered pair `(i, j)` with `1 ≤ i ≤ j` below the column count: the
price column (index 0) never participates, but the self-pairs `(i, i)`
are included. -/
theorem C2_signal_pairs (data_ma : List (String × List (Option ℚ)))
    (i j : ℕ) :
    ((i, j) ∈ signalPairs data_ma.length ↔
      1 ≤ i ∧ i ≤ j ∧ j < data_ma.length) ∧
    (form_signals data_ma).1.length = (signalPairs data_ma.length).length ∧
    (form_signals data_ma).2.length = (signalPairs data_ma.length).length := by
  refine ⟨?_, ?_, ?_⟩
  · rw [signalPairs, List.mem_flatMap]
    constructor
    · rintro ⟨a, ha, hmem⟩
      rw [List.mem_map] at hmem
      obtain ⟨b, hb, heq⟩ := hmem
      rw [Prod.mk.injEq] at heq
      obtain ⟨rfl, rfl⟩ := heq
      rw [mem_drop_range] at ha hb
      omega
    · rintro ⟨h1, h2, h3⟩
      exact ⟨i, mem_drop_range.mpr ⟨h1, by omega⟩,
        List.mem_map.mpr ⟨j, mem_drop_range.mpr ⟨h2, h3⟩, rfl⟩⟩
  · simp [form_signals]
  · simp [form_signals]

/-! ### C3: cash and position stay nonnegative -/

/-- The buy block keeps cash and position nonnegative when the price is
positive. -/
lemma buyStep_nonneg (s : ℚ × ℚ) (r : Row) (hp : 0 < r.price)
    (h1 : 0 ≤ s.1) (h2 : 0 ≤ s.2) :
    0 ≤ (buyStep s r).1 ∧ 0 ≤ (buyStep s r).2 := by
  rw [buyStep]
  split
  · have hfl : (0 : ℚ) ≤ ((⌊s.1 / r.price⌋ : ℤ) : ℚ) := by
      have h : (0 : ℤ) ≤ ⌊s.1 / r.price⌋ :=
        Int.floor_nonneg.mpr (div_nonneg h1 hp.le)
      exact_mod_cast h
    have hle : ((⌊s.1 / r.price⌋ : ℤ) : ℚ) ≤ s.1 / r.price := Int.floor_le _
    have hmul := mul_le_mul_of_nonneg_right hle hp.le
    rw [div_mul_cancel₀ _ (ne_of_gt hp)] at hmul
    exact ⟨by simpa using sub_nonneg.mpr hmul, by simpa using add_nonneg h2 hfl⟩
  · exact ⟨h1, h2⟩

/-- The sell block keeps cash and position nonnegative when the price is
positive. -/
lemma sellStep_nonneg (s : ℚ × ℚ) (r : Row) (hp : 0 < r.price)
    (h1 : 0 ≤ s.1) (h2 : 0 ≤ s.2) :
    0 ≤ (sellStep s r).1 ∧ 0 ≤ (sellStep s r).2 := by
  rw [sellStep]
  split
  · exact ⟨by simpa using add_nonneg h1 (mul_nonneg h2 hp.le), le_rfl⟩
  · exact ⟨h1, h2⟩

/-- A full simulator step keeps cash and position nonnegative. -/
lemma valStep_nonneg (s : ℚ × ℚ) (r : Row) (hp : 0 < r.price)
    (h1 : 0 ≤ s.1) (h2 : 0 ≤ s.2) :
    0 ≤ (valStep s r).1 ∧ 0 ≤ (valStep s r).2 := by
  rw [valStep]
  obtain ⟨hb1, hb2⟩ := buyStep_nonneg s r hp h1 h2
  exact sellStep_nonneg _ r hp hb1 hb2

/-- The loop of `validate` keeps cash and position nonnegative. -/
lemma foldl_valStep_nonneg :
    ∀ (l : List Row) (s : ℚ × ℚ), (∀ r ∈ l, 0 < r.price) →
      0 ≤ s.1 → 0 ≤ s.2 →
      0 ≤ (l.foldl valStep s).1 ∧ 0 ≤ (l.foldl valStep s).2
  | [], s, _, h1, h2 => ⟨h1, h2⟩
  | r :: rs, s, hp, h1, h2 => by
    rw [List.foldl_cons]
    obtain ⟨hv1, hv2⟩ := valStep_nonneg s r (hp r (List.mem_cons_self r rs)) h1 h2
    exact foldl_valStep_nonneg rs (valStep s r)
      (fun x hx => hp x (List.mem_cons_of_mem r hx)) hv1 hv2

/-- C3: with strictly positive prices, nonnegative starting cash and
nonnegative starting position, the simulator state has `cash ≥ 0` and
`position ≥ 0` after every step, and on a non-empty series `validate`
returns final position exactly 0. -/
theorem C3_invariants (stocks : List Row) (start_money start_eq : ℚ)
    (hp : ∀ r ∈ stocks, 0 < r.price)
    (hm : 0 ≤ start_money) (he : 0 ≤ start_eq) :
    (∀ n : ℕ,
      0 ≤ ((stocks.take n).foldl valStep (start_money, start_eq)).1 ∧
      0 ≤ ((stocks.take n).foldl valStep (start_money, start_eq)).2) ∧
    (stocks ≠ [] →
      ∃ hist fin, validate stocks start_money start_eq = some (hist, fin, 0)) := by
  constructor
  · intro n
    exact foldl_valStep_nonneg (stocks.take n) (start_money, start_eq)
      (fun r hr => hp r (List.take_subset n stocks hr)) hm he
  · intro hne
    have hs : stocks.getLast?.isSome := by
      rw [Option.isSome_iff_ne_none]
      intro hnone
      exact hne (List.getLast?_eq_none_iff.mp hnone)
    obtain ⟨lastRow, hlast⟩ := Option.isSome_iff_exists.mp hs
    refine ⟨(runHist stocks (start_money, start_eq)).1,
      (runHist stocks (start_money, start_eq)).2.1 +
        lastRow.price * (runHist stocks (start_money, start_eq)).2.2, ?_⟩
    simp only [validate]
    rw [hlast]

/-- Concrete instantiation of `C3_invariants`. -/
theorem C3_witness :
    (∀ r ∈ [Row.mk 10 (some 10) none], (0 : ℚ) < r.price) ∧
    (0 : ℚ) ≤ 100 ∧ (0 : ℚ) ≤ 0 ∧
    ((∀ n : ℕ,
      0 ≤ (([Row.mk 10 (some 10) none].take n).foldl valStep (100, 0)).1 ∧
      0 ≤ (([Row.mk 10 (some 10) none].take n).foldl valStep (100, 0)).2) ∧
    ([Row.mk 10 (some 10) none] ≠ [] →
      ∃ hist fin, validate [Row.mk 10 (some 10) none] 100 0 =
        some (hist, fin, 0))) := by
  have hp : ∀ r ∈ [Row.mk 10 (some 10) none], (0 : ℚ) < r.price := by
    intro r hr
    rw [List.mem_singleton] at hr
    subst hr
    norm_num
  exact ⟨hp, by norm_num, le_rfl, C3_invariants _ 100 0 hp (by norm_num) le_rfl⟩

/-! ### C10: shape and meaning of the wealth history -/

/-- The loop appends exactly one history entry per row. -/
lemma runHist_length : ∀ (l : List Row) (s : ℚ × ℚ),
    (runHist l s).1.length = l.length
  | [], _ => rfl
  | r :: rs, s => by
    rw [runHist]
    simpa using runHist_length rs (valStep s r)

/-- The loop's final state is the fold of `valStep` over the rows. -/
lemma runHist_snd : ∀ (l : List Row) (s : ℚ × ℚ),
    (runHist l s).2 = l.foldl valStep s
  | [], _ => rfl
  | r :: rs, s => by
    rw [runHist, List.foldl_cons]
    exact runHist_snd rs (valStep s r)

/-- The `i`-th history entry is the cash component of the state reached
after processing the first `i + 1` rows. -/
lemma runHist_getElem? : ∀ (l : List Row) (s : ℚ × ℚ) (i : ℕ), i < l.length →
    (runHist l s).1[i]? = some (((l.take (i + 1)).foldl valStep s).1)
  | [], _, i, h => absurd h (by simp)
  | r :: rs, s, 0, _ => by
    rw [runHist]
    simp [List.take_succ_cons]
  | r :: rs, s, i + 1, h => by
    rw [runHist]
    simpa [List.take_succ_cons] using
      runHist_getElem? rs (valStep s r) i (by simpa using h)

/-- C10: on a non-empty decision series `validate` returns one wealth
entry per row; the `i`-th entry is the cash balance immediately after
processing row `i` (position value excluded); and the final cash equals
the last history entry plus the last row's price times the position held
after the last step. -/
theorem C10_wealth_history (stocks : List Row) (start_money start_eq : ℚ)
    (hne : stocks ≠ []) :
    ∃ hist fin, validate stocks start_money start_eq = some (hist, fin, 0) ∧
      hist.length = stocks.length ∧
      (∀ i, i < stocks.length →
        hist[i]? =
          some (((stocks.take (i + 1)).foldl valStep
            (start_money, start_eq)).1)) ∧
      hist.getLast? = some ((stocks.foldl valStep (start_money, start_eq)).1) ∧
      ∃ lastRow, stocks.getLast? = some lastRow ∧
        fin = (stocks.foldl valStep (start_money, start_eq)).1 +
          lastRow.price * (stocks.foldl valStep (start_money, start_eq)).2 := by
  have hs : stocks.getLast?.isSome := by
    rw [Option.isSome_iff_ne_none]
    intro hnone
    exact hne (List.getLast?_eq_none_iff.mp hnone)
  obtain ⟨lastRow, hlast⟩ := Option.isSome_iff_exists.mp hs
  have hlen0 : 0 < stocks.length := List.length_pos.mpr hne
  refine ⟨(runHist stocks (start_money, start_eq)).1,
    (runHist stocks (start_money, start_eq)).2.1 +
      lastRow.price * (runHist stocks (start_money, start_eq)).2.2,
    ?_, ?_, ?_, ?_, lastRow, hlast, ?_⟩
  · simp only [validate]
    rw [hlast]
  · exact runHist_length stocks (start_money, start_eq)
  · intro i hi
    exact runHist_getElem? stocks (start_money, start_eq) i hi
  · rw [List.getLast?_eq_getElem?, runHist_length,
      runHist_getElem? stocks (start_money, start_eq) (stocks.length - 1)
        (by omega)]
    congr 2
    rw [Nat.sub_add_cancel hlen0, List.take_length]
  · rw [runHist_snd]

/-- Concrete instantiation of `C10_wealth_history`. -/
theorem C10_witness :
    [Row.mk 10 (some 10) none] ≠ [] ∧
    (∃ hist fin, validate [Row.mk 10 (some 10) none] 100 0 =
        some (hist, fin, 0) ∧
      hist.length = [Row.mk 10 (some 10) none].length ∧
      (∀ i, i < [Row.mk 10 (some 10) none].length →
        hist[i]? =
          some ((([Row.mk 10 (some 10) none].take (i + 1)).foldl valStep
            (100, 0)).1)) ∧
      hist.getLast? =
        some (([Row.mk 10 (some 10) none].foldl valStep (100, 0)).1) ∧
      ∃ lastRow, [Row.mk 10 (some 10) none].getLast? = some lastRow ∧
        fin = ([Row.mk 10 (some 10) none].foldl valStep (100, 0)).1 +
          lastRow.price *
            ([Row.mk 10 (some 10) none].foldl valStep (100, 0)).2) :=
  ⟨by simp, C10_wealth_history [Row.mk 10 (some 10) none] 100 0 (by simp)⟩

/-! ### C8: the moving-average columns -/

/-- The sum of a list prefix as a sum of indexed entries. -/
lemma sum_take_getD : ∀ (l : List ℚ) (w : ℕ), w ≤ l.length →
    (l.take w).sum = ∑ k ∈ Finset.range w, l.getD k 0
  | _, 0, _ => by simp
  | [], w + 1, h => absurd h (by simp)
  | x :: xs, w + 1, h => by
    rw [List.take_succ_cons, List.sum_cons,
      sum_take_getD xs w (by simpa using h), Finset.sum_range_succ']
    simp [add_comm]

/-- Indexed entry of a dropped list. -/
lemma getD_drop_eq (l : List ℚ) (a k : ℕ) :
    (l.drop a).getD k 0 = l.getD (a + k) 0 := by
  rw [List.getD_eq_getElem?_getD, List.getD_eq_getElem?_getD,
    List.getElem?_drop]

/-- The defined part of `rollingMean`: at index `i ≥ w - 1` it is the
mean of the `w` prices ending at `i`. -/
lemma rollingMean_defined (w : ℕ) (prices : List ℚ) (i : ℕ)
    (hi : i < prices.length) (hw : w ≤ i + 1) (hw0 : 0 < w) :
    (rollingMean w prices)[i]? =
      some (some ((∑ k ∈ Finset.range w, prices.getD (i + 1 - w + k) 0) /
        (w : ℚ))) := by
  rw [rollingMean, List.getElem?_map, List.getElem?_range hi]
  simp only [Option.map_some', if_pos (And.intro hw hw0)]
  congr 2
  rw [List.drop_take]
  have hww : i + 1 - (i + 1 - w) = w := by omega
  rw [hww, sum_take_getD _ w (by rw [List.length_drop]; omega)]
  congr 1
  exact Finset.sum_congr rfl fun k _ => getD_drop_eq prices (i + 1 - w) k

/-- C8: every requested window `w ≥ 1` contributes the column `ma_w` to
`create_ma`; that column is undefined at every index `< w - 1`, at
index `w - 1` it is exactly the mean of the first `w` prices, and at
any index `i ≥ w - 1` it is the mean of the prices at indices
`i - w + 1 .. i`. -/
theorem C8_moving_average (prices : List ℚ) (ma_steps : List ℕ) (w : ℕ)
    (hw : 1 ≤ w) (hmem : w ∈ ma_steps) :
    ("ma_" ++ toString w, rollingMean w prices) ∈ create_ma prices ma_steps ∧
    (∀ i, i < prices.length → i + 1 < w →
      (rollingMean w prices)[i]? = some none) ∧
    (w - 1 < prices.length →
      (rollingMean w prices)[w - 1]? =
        some (some ((prices.take w).sum / (w : ℚ)))) ∧
    (∀ i, i < prices.length → w ≤ i + 1 →
      (rollingMean w prices)[i]? =
        some (some ((∑ k ∈ Finset.range w, prices.getD (i + 1 - w + k) 0) /
          (w : ℚ)))) := by
  refine ⟨?_, ?_, ?_, ?_⟩
  · exact List.mem_cons_of_mem _ (List.mem_map.mpr ⟨w, hmem, rfl⟩)
  · intro i hi hlt
    rw [rollingMean, List.getElem?_map, List.getElem?_range hi]
    simp only [Option.map_some']
    rw [if_neg (by omega)]
  · intro hlen
    rw [rollingMean_defined w prices (w - 1) hlen (by omega) (by omega)]
    congr 3
    have h0 : w - 1 + 1 - w = 0 := by omega
    rw [h0, sum_take_getD prices w (by omega)]
    exact Finset.sum_congr rfl fun k _ => by rw [Nat.zero_add]
  · intro i hi hge
    exact rollingMean_defined w prices i hi hge (by omega)

/-- Concrete instantiation of `C8_moving_average`. -/
theorem C8_witness :
    ((1 : ℕ) ≤ 2 ∧ 2 ∈ [2, 3]) ∧
    (("ma_" ++ toString 2, rollingMean 2 [1, 2, 3]) ∈
        create_ma [1, 2, 3] [2, 3] ∧
      (∀ i, i < ([1, 2, 3] : List ℚ).length → i + 1 < 2 →
        (rollingMean 2 [1, 2, 3])[i]? = some none) ∧
      (2 - 1 < ([1, 2, 3] : List ℚ).length →
        (rollingMean 2 [1, 2, 3])[2 - 1]? =
          some (some ((([1, 2, 3] : List ℚ).take 2).sum / (2 : ℚ)))) ∧
      (∀ i, i < ([1, 2, 3] : List ℚ).length → 2 ≤ i + 1 →
        (rollingMean 2 [1, 2, 3])[i]? =
          some (some ((∑ k ∈ Finset.range 2,
            ([1, 2, 3] : List ℚ).getD (i + 1 - 2 + k) 0) / (2 : ℚ))))) :=
  ⟨⟨by norm_num, by norm_num⟩,
    C8_moving_average [1, 2, 3] [2, 3] 2 (by norm_num) (by norm_num)⟩

/-! ### C6: no validation of the window order -/

/-- A suffix of `List.range` is a `List.range'`. -/
lemma drop_range (n k : ℕ) :
    (List.range n).drop k = List.range' k (n - k) := by
  apply List.ext_getElem?
  intro i
  rw [List.getElem?_drop]
  by_cases h : k + i < n
  · rw [List.getElem?_range h, List.getElem?_range' k 1 (by omega)]
    simp
  · rw [List.getElem?_eq_none (by simp; omega),
      List.getElem?_eq_none (by simp [List.length_range']; omega)]

/-- Sum of a function mapped over `List.range'`. -/
lemma sum_map_range' (f : ℕ → ℕ) : ∀ (m s : ℕ),
    ((List.range' s m).map f).sum = ∑ i ∈ Finset.range m, f (s + i)
  | 0, _ => by simp
  | m + 1, s => by
    rw [List.range'_succ, List.map_cons, List.sum_cons,
      sum_map_range' f m (s + 1), Finset.sum_range_succ', Nat.add_zero]
    conv_rhs => rw [Nat.add_comm]
    congr 1
    exact Finset.sum_congr rfl fun i _ => by
      rw [Nat.add_assoc, Nat.add_comm 1 i]

/-- Twice the descending triangular sum. -/
lemma sum_range_sub_mul_two : ∀ m : ℕ,
    (∑ i ∈ Finset.range m, (m - i)) * 2 = m * (m + 1)
  | 0 => by simp
  | m + 1 => by
    have hcong : ∑ i ∈ Finset.range m, (m + 1 - i) =
        (∑ i ∈ Finset.range m, (m - i)) + m := by
      calc ∑ i ∈ Finset.range m, (m + 1 - i)
          = ∑ i ∈ Finset.range m, ((m - i) + 1) :=
            Finset.sum_congr rfl fun i hi => by
              rw [Finset.mem_range] at hi
              omega
        _ = (∑ i ∈ Finset.range m, (m - i)) + ∑ _i ∈ Finset.range m, 1 :=
            Finset.sum_add_distrib
        _ = (∑ i ∈ Finset.range m, (m - i)) + m := by simp
    rw [Finset.sum_range_succ, hcong]
    have hm : m + 1 - m = 1 := by omega
    rw [hm]
    have ih := sum_range_sub_mul_two m
    calc ((∑ i ∈ Finset.range m, (m - i)) + m + 1) * 2
        = (∑ i ∈ Finset.range m, (m - i)) * 2 + (2 * m + 2) := by ring
      _ = m * (m + 1) + (2 * m + 2) := by rw [ih]
      _ = (m + 1) * (m + 1 + 1) := by ring

/-- The loop-pair count of `form_signals` over `n` columns. -/
lemma signalPairs_length_mul_two (n : ℕ) :
    (signalPairs n).length * 2 = n * (n - 1) := by
  rw [signalPairs, List.length_flatMap]
  have hmap : List.map
      (List.length ∘ fun i => ((List.range n).drop i).map fun j => (i, j))
      ((List.range n).drop 1) =
      List.map (fun i => n - i) ((List.range n).drop 1) := by
    apply List.map_congr_left
    intro a _
    simp [List.length_drop]
  rw [hmap, drop_range, sum_map_range']
  have hcong : ∑ i ∈ Finset.range (n - 1), (n - (1 + i)) =
      ∑ i ∈ Finset.range (n - 1), ((n - 1) - i) :=
    Finset.sum_congr rfl fun i _ => by omega
  rw [hcong, sum_range_sub_mul_two]
  cases n with
  | zero => rfl
  | succ v => simp [Nat.mul_comm]

/-- C6 counterexample: with the non-increasing window list `[10, 5]`
nothing fails: `create_ma` builds the table and `form_signals` happily
produces named signal series, so the computation proceeds past signal
generation instead of raising any error. -/
theorem C6_counterexample :
    (create_ma [1, 2, 3] [10, 5]).map Prod.fst = ["price", "ma_10", "ma_5"] ∧
    (form_signals (create_ma [1, 2, 3] [10, 5])).1.map Prod.fst =
      ["ma_10_ma_10_sell_signal", "ma_10_ma_5_sell_signal",
        "ma_5_ma_5_sell_signal"] := by
  constructor
  · decide
  · decide

/-- C6 (amended): the pipeline performs no check of the window order:
for every window list — increasing or not — `create_ma` returns a table
of one price column plus one column per window, and `form_signals`
generates its full set of signal series from it, never failing fast. -/
theorem C6_no_validation (prices : List ℚ) (ma_steps : List ℕ) :
    (create_ma prices ma_steps).length = ma_steps.length + 1 ∧
    (form_signals (create_ma prices ma_steps)).1.length * 2 =
      (ma_steps.length + 1) * ma_steps.length ∧
    (form_signals (create_ma prices ma_steps)).2.length * 2 =
      (ma_steps.length + 1) * ma_steps.length := by
  have hcols : (create_ma prices ma_steps).length = ma_steps.length + 1 := by
    simp [create_ma]
  have hlen1 : (form_signals (create_ma prices ma_steps)).1.length =
      (signalPairs (ma_steps.length + 1)).length := by
    simp [form_signals, hcols]
  have hlen2 : (form_signals (create_ma prices ma_steps)).2.length =
      (signalPairs (ma_steps.length + 1)).length := by
    simp [form_signals, hcols]
  refine ⟨hcols, ?_, ?_⟩
  · rw [hlen1, signalPairs_length_mul_two]
    simp
  · rw [hlen2, signalPairs_length_mul_two]
    simp

end MarketKing
